import Mathlib

/-!
Verification development for the clinical-data-harmonization scripts
(`harmonize.py` and `demo.py`).

The two scripts share a text-normalization pipeline (`create_cleaner` /
`clean_and_standardize`) and a two-stage matcher (`find_best_match`).
We embed both shallowly:

* Text is `List Char` (wrapped in `String` at the interfaces).  The model
  covers the ASCII fragment: `\w` is `[a-zA-Z0-9_]`, `\s` is the six ASCII
  whitespace characters, `.lower()` is ASCII lowercasing — faithful to the
  Python behaviour on the ASCII inputs the scripts process.
* Each `re.sub` call in the source becomes a dedicated left-to-right
  scanner with the exact greedy/backtracking behaviour of its concrete
  pattern (worked out per pattern; each matcher documents its regex).
* External library calls are parameters of the embedded functions, at the
  same boundary as in the source: `TfidfVectorizer.transform` composed with
  `cosine_similarity` becomes a parameter `String → List ℚ` producing the
  per-entry similarity vector, and `fuzz.WRatio` becomes a parameter
  `String → String → ℚ`.  Scores use `ℚ` in place of Python floats; the
  comparisons performed by the code are order-theoretic, so the control
  flow is unaffected.
* `numpy.argsort` is modelled as a stable ascending sort (numpy's default
  `kind='quicksort'` leaves tie order unspecified; the stable model is the
  deterministic reading and is what the spec's determinism claims require).
-/

/-- Python `\s` (ASCII): space, tab, newline, vertical tab, form feed, carriage return. -/
def isSpaceChar (c : Char) : Bool :=
  c = ' ' || c = '\t' || c = '\n' || c = '\x0b' || c = '\x0c' || c = '\r'

/-- Character class `[a-z]` of the final cleanup regex `[^a-z0-9\s]`. -/
def isLowerChar (c : Char) : Bool :=
  97 ≤ c.toNat && c.toNat ≤ 122

/-- Character class `[0-9]` (Python `\d`, ASCII). -/
def isDigitChar (c : Char) : Bool :=
  48 ≤ c.toNat && c.toNat ≤ 57

/-- Python `\w` (ASCII fragment): letters, digits, underscore. -/
def isWordChar (c : Char) : Bool :=
  c.isAlpha || c.isDigit || c = '_'

/-- Word-character status of an optional character; the ends of the string
count as non-word, which is how `\b` treats them. -/
def optWord : Option Char → Bool
  | none => false
  | some c => isWordChar c

/-- Drop trailing Python whitespace. -/
def dropTrail (l : List Char) : List Char :=
  (l.reverse.dropWhile isSpaceChar).reverse

/-- Python `str.strip()`: drop leading and trailing whitespace. -/
def pyStrip (l : List Char) : List Char :=
  dropTrail (l.dropWhile isSpaceChar)

/-- Python `str.lower()` (ASCII fragment). -/
def lowerL (l : List Char) : List Char :=
  l.map Char.toLower

/-- `re.sub(r'\s+', ' ', ·)`: collapse every maximal whitespace run to a
single space.  Computed by a right fold: a whitespace character merges into
an already-collapsed run (which necessarily starts with `' '`). -/
def collapseWs (l : List Char) : List Char :=
  l.foldr
    (fun c acc =>
      if isSpaceChar c then (if acc.head? = some ' ' then acc else ' ' :: acc)
      else c :: acc) []

/-- `re.sub(r'[^a-z0-9\s]', ' ', ·)`: replace every character that is not a
lowercase letter, digit or whitespace by a space. -/
def charFilter (l : List Char) : List Char :=
  l.map (fun c => if isLowerChar c || isDigitChar c || isSpaceChar c then c else ' ')

/-- Python `str.split()`: split on whitespace runs, dropping empty pieces. -/
def pySplitCore (l : List Char) : List (List Char) :=
  let p := l.foldr
    (fun c (acc : List Char × List (List Char)) =>
      if isSpaceChar c then ([], if acc.1.isEmpty then acc.2 else acc.1 :: acc.2)
      else (c :: acc.1, acc.2))
    (([] : List Char), ([] : List (List Char)))
  if p.1.isEmpty then p.2 else p.1 :: p.2

/-- Generic fueled left-to-right `re.sub` scanner.  `m prev t` inspects the
unconsumed text `t` (with `prev` the character just before it, for `\b`)
and returns `some (L, repl)` when the pattern matches a prefix of `t` of
length `L`, to be replaced by `repl`; scanning resumes after the match,
exactly like `re.sub`'s non-overlapping left-to-right semantics.  Fuel is
the length of the scanned text (each step consumes at least one character,
so `l.length` fuel always suffices). -/
def scanSub (m : Option Char → List Char → Option (Nat × List Char)) :
    Nat → Option Char → List Char → List Char
  | 0, _, cs => cs
  | _ + 1, _, [] => []
  | f + 1, prev, c :: cs =>
    match m prev (c :: cs) with
    | some (L, repl) =>
      repl ++ scanSub m f (((c :: cs).take (max L 1)).getLastD c) ((c :: cs).drop (max L 1))
    | none => c :: scanSub m f (some c) cs

/-- Matcher for `re.sub(r'sig:.*', '', text)`: the literal `sig:` followed
greedily by the rest of the line (`.` does not cross `'\n'`). -/
def mSig (_ : Option Char) (t : List Char) : Option (Nat × List Char) :=
  if ("sig:".data).isPrefixOf t then
    some (4 + ((t.drop 4).takeWhile (fun c => c ≠ '\n')).length, [])
  else none

def subSig (l : List Char) : List Char :=
  scanSub mSig l.length none l

/-- Search for the greedy split of `.*` inside `take \d+(\s*\(.*\))? …`:
the largest `k ≤ bound` such that the text after the first `k` characters
starts with the literal `") tablet(s"`. -/
def searchClose (inside : List Char) : Nat → Option Nat
  | 0 => if (") tablet(s".data).isPrefixOf inside then some 0 else none
  | k + 1 =>
    if (") tablet(s".data).isPrefixOf (inside.drop (k + 1)) then some (k + 1)
    else searchClose inside k

/-- Match length of `take \d+(\s*\(.*\))? tablet\(s\)?` at the head of `t`
(`re.sub` number 2 of the cleaner).  The engine tries the optional
parenthetical group first (greedy), with `.*` as long as possible and not
crossing a newline, then falls back to the group-free alternative. -/
def takeMatchLen (t : List Char) : Option Nat :=
  if ("take ".data).isPrefixOf t then
    let r1 := t.drop 5
    let d := (r1.takeWhile isDigitChar).length
    if d = 0 then none else
      let r2 := r1.drop d
      let ws := (r2.takeWhile isSpaceChar).length
      let r3 := r2.drop ws
      let withGroup : Option Nat :=
        match r3 with
        | '(' :: inside =>
          match searchClose inside ((inside.takeWhile (fun c => c ≠ '\n')).length) with
          | some k =>
            let rest := (inside.drop (k + 10))
            some (5 + d + ws + 1 + k + 10 + (if rest.head? = some ')' then 1 else 0))
          | none => none
        | _ => none
      match withGroup with
      | some L => some L
      | none =>
        if (" tablet(s".data).isPrefixOf r2 then
          some (5 + d + 9 + (if ((r2.drop 9).head? = some ')') then 1 else 0))
        else none
  else none

def mTake (_ : Option Char) (t : List Char) : Option (Nat × List Char) :=
  (takeMatchLen t).map (fun L => (L, []))

def subTake (l : List Char) : List Char :=
  scanSub mTake l.length none l

/-- The unit alternatives of `\d+(\.\d+)?\s*(mg|ml|mcg|unit|units|g|gram|grams)\b`,
in the engine's left-to-right order. -/
def unitAlts : List (List Char) :=
  ["mg".data, "ml".data, "mcg".data, "unit".data, "units".data,
   "g".data, "gram".data, "grams".data]

/-- First unit alternative matching at the head of `r` and followed by a
word boundary (each alternative ends in a word character, so the boundary
requires the next character to be absent or non-word). -/
def findUnit (r : List Char) : Option Nat :=
  unitAlts.findSome? (fun a =>
    if a.isPrefixOf r && !(optWord (r.drop a.length).head?) then some a.length else none)

/-- Match length of `\d+(\.\d+)?\s*(mg|ml|mcg|unit|units|g|gram|grams)\b`
at the head of `t` (`re.sub` number 3 of the cleaner).  All quantifiers are
effectively possessive here: shrinking `\d+`, the fraction or `\s*` leaves
a digit, dot or space in front of the unit alternatives, none of which can
start them, so maximal munch is exact. -/
def doseMatchLen (t : List Char) : Option Nat :=
  let d := (t.takeWhile isDigitChar).length
  if d = 0 then none else
    let r1 := t.drop d
    let fl := match r1 with
      | '.' :: r => let e := (r.takeWhile isDigitChar).length; if e = 0 then 0 else e + 1
      | _ => 0
    let r2 := r1.drop fl
    let ws := (r2.takeWhile isSpaceChar).length
    match findUnit (r2.drop ws) with
    | some u => some (d + fl + ws + u)
    | none => none

def mDose (_ : Option Char) (t : List Char) : Option (Nat × List Char) :=
  (doseMatchLen t).map (fun L => (L, []))

def subDose (l : List Char) : List Char :=
  scanSub mDose l.length none l

/-- The alternatives of the stop-phrase pass
`\b(by|via|every|with|as needed|at bedtime|oral|route|injection|topically)\b`,
in the engine's left-to-right order. -/
def stopAlts : List (List Char) :=
  ["by".data, "via".data, "every".data, "with".data, "as needed".data,
   "at bedtime".data, "oral".data, "route".data, "injection".data, "topically".data]

/-- Matcher for the stop-phrase pass: leading `\b` against the preceding
character, then the first alternative that is a prefix of the text and is
followed by a `\b`. -/
def mStops (prev : Option Char) (t : List Char) : Option (Nat × List Char) :=
  match t with
  | [] => none
  | c :: _ =>
    if optWord prev != isWordChar c then
      match stopAlts.findSome? (fun a =>
        if a.isPrefixOf t && (optWord a.getLast? != optWord (t.drop a.length).head?)
        then some a.length else none) with
      | some L => some (L, [])
      | none => none
    else none

def subStops (l : List Char) : List Char :=
  scanSub mStops l.length none l

/-- Matcher for `re.sub(r'\b' + re.escape(key) + r'\b', value, ·)` (also
used, with empty replacement, for the redundant-keyword pass): the literal
`pat` flanked by word boundaries. -/
def mWord (pat repl : List Char) (prev : Option Char) (t : List Char) :
    Option (Nat × List Char) :=
  if (!pat.isEmpty) && pat.isPrefixOf t
      && (optWord prev != optWord pat.head?)
      && (optWord pat.getLast? != optWord (t.drop pat.length).head?)
  then some (pat.length, repl) else none

/-- One whole-word substitution pass, `re.sub(r'\b<pat>\b', repl, l)` with
`pat` taken literally. -/
def subB (pat repl : List Char) (l : List Char) : List Char :=
  scanSub (mWord pat repl) l.length none l

/-- Stable insertion of a correction rule into a list already sorted by
strictly decreasing key length: skip rules with strictly longer keys, then
place the new rule in front (it came earlier in insertion order). -/
def insCorr (p : List Char × List Char) :
    List (List Char × List Char) → List (List Char × List Char)
  | [] => [p]
  | q :: qs => if p.1.length < q.1.length then q :: insCorr p qs else p :: q :: qs

/-- `sorted(correction_map.items(), key=lambda item: len(item[0]), reverse=True)`:
stable sort by descending key length (Python's `sorted` is stable and
`reverse=True` preserves the relative order of equal keys). -/
def sortCorr (cm : List (List Char × List Char)) : List (List Char × List Char) :=
  cm.foldr insCorr []

/-- The noise-removal passes of `clean_and_standardize` (source lines 42-53
of `harmonize.py`): instruction suffix, dosage instruction, numeric dose,
stop phrases, corrections sorted longest-key-first, redundant keywords. -/
def noiseStage (cm : List (List Char × List Char)) (rk : List (List Char))
    (t : List Char) : List Char :=
  let t2 := subSig t
  let t3 := subTake t2
  let t4 := subDose t3
  let t5 := subStops t4
  let t6 := (sortCorr cm).foldl (fun s p => subB p.1 p.2 s) t5
  rk.foldl (fun s w => subB w [] s) t6

/-- `text.lower().strip()`, the first line of the cleaner. -/
def preClean (t : List Char) : List Char :=
  pyStrip (lowerL t)

/-- The final cleanup of the cleaner: character filter, whitespace
collapse, strip (source lines 56-57 of `harmonize.py`). -/
def finalize (t : List Char) : List Char :=
  pyStrip (collapseWs (charFilter t))

/-- The full `clean_and_standardize` pipeline of `harmonize.py` on text. -/
def cleanL (cm : List (List Char × List Char)) (rk : List (List Char))
    (l : List Char) : List Char :=
  finalize (noiseStage cm rk (preClean l))

/-- A pandas cell as seen by the cleaner: either a Python `str` or any
non-string value (`NaN`, `None`, a number, …), which the
`isinstance(text, str)` guard rejects. -/
inductive Cell where
  | str (s : String)
  | na
deriving DecidableEq

/-- `clean_and_standardize` from `harmonize.py` (the closure produced by
`create_cleaner(correction_map, redundant_keywords)`). -/
def clean_and_standardize (cm : List (List Char × List Char))
    (rk : List (List Char)) : Cell → String
  | Cell.str s => String.mk (cleanL cm rk s.data)
  | Cell.na => ""

/-- Modelled from the spec: demo.py's step 8 "Tokenize into words; reduce
each word to its dictionary base form (lemmatization) …; rejoin with
single spaces".  `nltk.word_tokenize` and `WordNetLemmatizer` are external
libraries; the tokenizer is modelled as whitespace splitting per the
spec's wording and the lemmatizer is a parameter. -/
def lemmStep (lemm : List Char → List Char) (t : List Char) : List Char :=
  List.intercalate [' '] ((pySplitCore t).map lemm)

/-- The full `clean_and_standardize` pipeline of `demo.py` on text: the
same passes as `harmonize.py` plus the tokenize/lemmatize/rejoin step
between the keyword pass and the final cleanup. -/
def cleanLDemo (lemm : List Char → List Char)
    (cm : List (List Char × List Char)) (rk : List (List Char))
    (l : List Char) : List Char :=
  finalize (lemmStep lemm (noiseStage cm rk (preClean l)))

/-- `clean_and_standardize` from `demo.py`. -/
def clean_and_standardize_demo (lemm : List Char → List Char)
    (cm : List (List Char × List Char)) (rk : List (List Char)) : Cell → String
  | Cell.str s => String.mk (cleanLDemo lemm cm rk s.data)
  | Cell.na => ""

/-- A row of a reference-vocabulary table, after the cleaning pass added
the `Cleaned_STR` column. -/
structure TermEntry where
  CODE : String
  STR : String
  CleanedSTR : String
deriving DecidableEq

/-- Placeholder entry for out-of-range positional access (never reached on
the index ranges the matcher produces). -/
def dfltEntry : TermEntry := ⟨"", "", ""⟩

/-- The dictionary `find_best_match` returns. -/
structure MatchResult where
  System : String
  Code : String
  Description : String
deriving DecidableEq

/-- `pandas.DataFrame.iloc` positional access with Python's negative
indexing (position `-1` is the last row). -/
def ilocE (data : List TermEntry) (i : Int) : TermEntry :=
  if 0 ≤ i then data.getD i.toNat dfltEntry
  else data.getD (data.length - (-i).toNat) dfltEntry

/-- Stable insertion of index `i` into a list of indices sorted
ascending-by-value: skip indices with strictly smaller value, then place
`i` in front of the rest (`i` precedes equal-valued indices inserted
before it, which all have larger index). -/
def insIdx (v : List ℚ) (i : Nat) : List Nat → List Nat
  | [] => [i]
  | j :: js => if v.getD j 0 < v.getD i 0 then j :: insIdx v i js else i :: j :: js

/-- `similarities.argsort()`, modelled as the stable ascending sort of the
positions `0, …, n-1` by similarity value (ties in ascending index order). -/
def argsortAsc (v : List ℚ) : List Nat :=
  (List.range v.length).foldr (insIdx v) []

/-- `similarities.argsort()[-20:][::-1]`: the last (at most) twenty
positions of the ascending sort, reversed — the stage-1 candidate list. -/
def argTop20 (v : List ℚ) : List Nat :=
  ((argsortAsc v).drop ((argsortAsc v).length - 20)).reverse

/-- The word-overlap score of one rerank candidate (source line 83 of
`harmonize.py`): `100 * |set(description.split()) ∩ set(candidate.split())|
/ |set(description.split())|`, and `0` for an empty query word set.  The
division is written with `mkRat` (the same rational; see
`overlapScoreAt_eq_div`) so that concrete instances evaluate. -/
def overlapScoreAt (desc : String) (cstr : String) : ℚ :=
  let iw := (pySplitCore desc.data).dedup
  if iw.isEmpty then 0
  else mkRat (100 * (iw.filter (fun t => (pySplitCore cstr.data).contains t)).length)
        iw.length

/-- The combined rerank score of the candidate at position `idx` (source
line 84 of `harmonize.py`): `wratio * 0.4 + overlap * 0.6` (the weights
0.4 and 0.6 written as explicit rationals). -/
def finalScoreAt (desc : String) (data : List TermEntry)
    (wratio : String → String → ℚ) (idx : Nat) : ℚ :=
  let cstr := (data.getD idx dfltEntry).CleanedSTR
  wratio desc cstr * mkRat 4 10 + overlapScoreAt desc cstr * mkRat 6 10

/-- The rerank loop of `find_best_match` (source lines 76-87): running
`(best_final_score, best_match_index)` accumulator starting at `(-1, -1)`,
updated on strict improvement. -/
def rerankFold (fs : Nat → ℚ) (l : List Nat) (acc : ℚ × Int) : ℚ × Int :=
  l.foldl (fun a i => if a.1 < fs i then (fs i, (i : Int)) else a) acc

/-- The body of `find_best_match` after routing chose the data, similarity
source and coding-system label.  `sims` is the output of
`cosine_similarity(vectorizer.transform([description]), tfidf_matrix).flatten()`,
supplied by the caller as the routed similarity oracle's value. -/
def findCore (desc system : String) (data : List TermEntry) (sims : List ℚ)
    (wratio : String → String → ℚ) : MatchResult :=
  if (pyStrip desc.data).isEmpty then
    ⟨system, "NO_INPUT", "Original text was empty after cleaning"⟩
  else
    match argTop20 sims with
    | [] => ⟨system, "NOT_FOUND", "No suitable match found"⟩
    | c0 :: rest =>
      if sims.getD c0 0 < mkRat 1 10 then ⟨system, "NOT_FOUND", "No suitable match found"⟩
      else
        let best := rerankFold (finalScoreAt desc data wratio) (c0 :: rest) (-1, -1)
        ⟨system, (ilocE data best.2).CODE, (ilocE data best.2).STR⟩

/-- `find_best_match` from `harmonize.py`.  The external vectorizer/cosine
pipeline of each index is abstracted as a function from the query to the
per-entry similarity vector, and `fuzz.WRatio` as `wratio`. -/
def find_best_match (desc ety : String) (snomedData rxnormData : List TermEntry)
    (snomedSim rxnormSim : String → List ℚ)
    (wratio : String → String → ℚ) : MatchResult :=
  if (["Procedure", "Lab", "Diagnosis"] : List String).contains ety then
    findCore desc "SNOMEDCT_US" snomedData (snomedSim desc) wratio
  else
    findCore desc "RXNORM" rxnormData (rxnormSim desc) wratio

/-- `find_best_match` from `demo.py` — textually the same function. -/
def find_best_match_demo (desc ety : String) (snomedData rxnormData : List TermEntry)
    (snomedSim rxnormSim : String → List ℚ)
    (wratio : String → String → ℚ) : MatchResult :=
  if (["Procedure", "Lab", "Diagnosis"] : List String).contains ety then
    findCore desc "SNOMEDCT_US" snomedData (snomedSim desc) wratio
  else
    findCore desc "RXNORM" rxnormData (rxnormSim desc) wratio

/-- The characters that can appear in a fully cleaned string: lowercase
letters, digits, and the single space. -/
def normChar (c : Char) : Bool :=
  isLowerChar c || isDigitChar c || c = ' '

/-- No two adjacent whitespace characters. -/
def NoAdjSpace (a b : Char) : Prop :=
  ¬(isSpaceChar a = true ∧ isSpaceChar b = true)

/-- A whole-word occurrence of the literal `pat` in `l`: `pat` appears with
a regex word boundary on each side (the criterion each `\b<pat>\b`
substitution pass matches against). -/
def WholeWordOcc (pat l : List Char) : Prop :=
  ∃ a b, l = a ++ pat ++ b
    ∧ (optWord a.getLast? != optWord pat.head?) = true
    ∧ (optWord pat.getLast? != optWord b.head?) = true

/-- Executable scan for a whole-word occurrence of `pat` (used to decide
concrete instances of `WholeWordOcc`). -/
def wwScan (pat : List Char) : Option Char → List Char → Bool
  | _, [] => false
  | prev, c :: cs => (mWord pat [] prev (c :: cs)).isSome || wwScan pat (some c) cs

/-- Strict ascending order on positions used by the stable argsort model:
smaller similarity first, ties in ascending position order. -/
def lexLt (v : List ℚ) (i j : Nat) : Prop :=
  v.getD i 0 < v.getD j 0 ∨ (v.getD i 0 = v.getD j 0 ∧ i < j)

/-- Modelled from the spec: the similarity oracle of a one-entry index whose
fitted vocabulary is the single term `term` (spec: the query "is projected
into this fixed space (terms unseen in the index contribute zero weight)").
A query containing the term has cosine similarity 1 with the entry, any
other query similarity 0. -/
def oneDocSim (term : String) (query : String) : List ℚ :=
  [if (pySplitCore query.data).contains term.data then 1 else 0]

/-- Modelled from the spec: a lemmatizer instance "reduce each word to its
dictionary base form"; WordNet maps the plural "cats" to "cat". -/
def lemmEx (w : List Char) : List Char :=
  if w = "cats".data then "cat".data else w

/-! ### Character-level facts -/

theorem space_toNat_le {c : Char} (h : isSpaceChar c = true) : c.toNat ≤ 32 := by
  simp only [isSpaceChar, Bool.or_eq_true, decide_eq_true_eq] at h
  rcases h with ((((h | h) | h) | h) | h) | h <;> subst h <;> decide

theorem normChar_toLower {c : Char} (h : normChar c = true) : c.toLower = c := by
  have hn : ¬(c.toNat ≥ 65 ∧ c.toNat ≤ 90) := by
    simp only [normChar, isLowerChar, isDigitChar, Bool.or_eq_true, Bool.and_eq_true,
      decide_eq_true_eq] at h
    rcases h with (⟨h1, _⟩ | ⟨_, h2⟩) | h3
    · omega
    · omega
    · subst h3; decide
  simp only [Char.toLower, hn, if_false]

theorem normChar_keep {c : Char} (h : normChar c = true) :
    (isLowerChar c || isDigitChar c || isSpaceChar c) = true := by
  simp only [normChar, Bool.or_eq_true, decide_eq_true_eq] at h
  rcases h with (h | h) | h
  · simp [h]
  · simp [h]
  · subst h; decide

theorem normChar_space_eq {c : Char} (h : normChar c = true)
    (hs : isSpaceChar c = true) : c = ' ' := by
  simp only [normChar, isLowerChar, isDigitChar, Bool.or_eq_true, Bool.and_eq_true,
    decide_eq_true_eq] at h
  have := space_toNat_le hs
  rcases h with (⟨h1, _⟩ | ⟨h1, _⟩) | h3
  · omega
  · omega
  · exact h3

/-! ### Facts about pyStrip -/

theorem head?_dropWhile_false {p : Char → Bool} :
    ∀ {l : List Char} {c : Char}, (l.dropWhile p).head? = some c → p c = false := by
  intro l
  induction l with
  | nil => intro c h; simp [List.dropWhile] at h
  | cons a l ih =>
    intro c h
    rw [List.dropWhile_cons] at h
    by_cases hp : p a = true
    · rw [if_pos hp] at h; exact ih h
    · rw [if_neg hp] at h
      simp only [List.head?_cons, Option.some.injEq] at h
      subst h; exact Bool.eq_false_iff.mpr hp

theorem dropWhile_eq_self_of_head {p : Char → Bool} {l : List Char}
    (h : ∀ c, l.head? = some c → p c = false) : l.dropWhile p = l := by
  cases l with
  | nil => rfl
  | cons a l =>
    rw [List.dropWhile_cons, if_neg]
    simp [h a rfl]

theorem pyStrip_isInfixOf (l : List Char) : pyStrip l <:+: l := by
  unfold pyStrip dropTrail
  have h1 : l.dropWhile isSpaceChar <:+ l := List.dropWhile_suffix _
  have h2 : ((l.dropWhile isSpaceChar).reverse.dropWhile isSpaceChar).reverse
      <+: l.dropWhile isSpaceChar := by
    obtain ⟨t, ht⟩ := List.dropWhile_suffix (l := (l.dropWhile isSpaceChar).reverse)
      isSpaceChar
    exact ⟨t.reverse, by
      have := congrArg List.reverse ht
      simpa [List.reverse_append] using this⟩
  exact h2.isInfix.trans h1.isInfix

theorem mem_pyStrip {l : List Char} {c : Char} (h : c ∈ pyStrip l) : c ∈ l :=
  (pyStrip_isInfixOf l).subset h

theorem pyStrip_head?_not_space {l : List Char} {c : Char}
    (h : (pyStrip l).head? = some c) : isSpaceChar c = false := by
  unfold pyStrip dropTrail at h
  rw [List.head?_reverse] at h
  set Y := (l.dropWhile isSpaceChar).reverse.dropWhile isSpaceChar with hY
  cases hYn : Y with
  | nil => rw [hYn] at h; simp at h
  | cons y ys =>
    have hsfx : Y <:+ (l.dropWhile isSpaceChar).reverse := List.dropWhile_suffix _
    obtain ⟨t, ht⟩ := hsfx
    rw [hYn] at ht
    have : ((l.dropWhile isSpaceChar).reverse).getLast? = some c := by
      rw [← ht, List.getLast?_append]
      rw [hYn] at h
      simp [h]
    rw [List.getLast?_reverse] at this
    exact head?_dropWhile_false this

theorem pyStrip_getLast?_not_space {l : List Char} {c : Char}
    (h : (pyStrip l).getLast? = some c) : isSpaceChar c = false := by
  unfold pyStrip dropTrail at h
  rw [List.getLast?_reverse] at h
  exact head?_dropWhile_false h

theorem pyStrip_noop {l : List Char}
    (h1 : ∀ c, l.head? = some c → isSpaceChar c = false)
    (h2 : ∀ c, l.getLast? = some c → isSpaceChar c = false) : pyStrip l = l := by
  unfold pyStrip dropTrail
  rw [dropWhile_eq_self_of_head h1, dropWhile_eq_self_of_head (by
    intro c hc
    rw [List.head?_reverse] at hc
    exact h2 c hc), List.reverse_reverse]

theorem pyStrip_idem (l : List Char) : pyStrip (pyStrip l) = pyStrip l :=
  pyStrip_noop (fun _ h => pyStrip_head?_not_space h)
    (fun _ h => pyStrip_getLast?_not_space h)

/-! ### Facts about collapseWs and charFilter -/

theorem collapseWs_nil : collapseWs [] = [] := rfl

theorem collapseWs_cons (c : Char) (cs : List Char) :
    collapseWs (c :: cs) =
      if isSpaceChar c then
        (if (collapseWs cs).head? = some ' ' then collapseWs cs else ' ' :: collapseWs cs)
      else c :: collapseWs cs := rfl

theorem mem_collapseWs {l : List Char} {c : Char} (h : c ∈ collapseWs l) :
    c ∈ l ∨ c = ' ' := by
  induction l with
  | nil => simp [collapseWs_nil] at h
  | cons a l ih =>
    rw [collapseWs_cons] at h
    by_cases ha : isSpaceChar a = true
    · rw [if_pos ha] at h
      by_cases hh : (collapseWs l).head? = some ' '
      · rw [if_pos hh] at h
        rcases ih h with h' | h'
        · exact Or.inl (List.mem_cons_of_mem _ h')
        · exact Or.inr h'
      · rw [if_neg hh] at h
        rcases List.mem_cons.mp h with h' | h'
        · exact Or.inr h'
        · rcases ih h' with h'' | h''
          · exact Or.inl (List.mem_cons_of_mem _ h'')
          · exact Or.inr h''
    · rw [if_neg ha] at h
      rcases List.mem_cons.mp h with h' | h'
      · exact Or.inl (h' ▸ List.mem_cons_self _ _)
      · rcases ih h' with h'' | h''
        · exact Or.inl (List.mem_cons_of_mem _ h'')
        · exact Or.inr h''

theorem collapseWs_space_eq {l : List Char} {c : Char} (h : c ∈ collapseWs l)
    (hs : isSpaceChar c = true) : c = ' ' := by
  induction l with
  | nil => simp [collapseWs_nil] at h
  | cons a l ih =>
    rw [collapseWs_cons] at h
    by_cases ha : isSpaceChar a = true
    · rw [if_pos ha] at h
      by_cases hh : (collapseWs l).head? = some ' '
      · rw [if_pos hh] at h; exact ih h
      · rw [if_neg hh] at h
        rcases List.mem_cons.mp h with h' | h'
        · exact h'
        · exact ih h'
    · rw [if_neg ha] at h
      rcases List.mem_cons.mp h with h' | h'
      · subst h'; rw [hs] at ha; exact absurd rfl ha
      · exact ih h'

theorem collapseWs_head? (l : List Char) :
    (collapseWs l).head? = l.head?.map (fun c => if isSpaceChar c then ' ' else c) := by
  cases l with
  | nil => rfl
  | cons a l =>
    rw [collapseWs_cons]
    by_cases ha : isSpaceChar a = true
    · rw [if_pos ha]
      by_cases hh : (collapseWs l).head? = some ' '
      · rw [if_pos hh, hh]; simp [ha]
      · rw [if_neg hh]; simp [ha]
    · rw [if_neg ha]
      simp only [Bool.not_eq_true] at ha
      simp [ha]

theorem collapseWs_chain (l : List Char) : List.Chain' NoAdjSpace (collapseWs l) := by
  induction l with
  | nil => simp [collapseWs_nil]
  | cons a l ih =>
    rw [collapseWs_cons]
    by_cases ha : isSpaceChar a = true
    · rw [if_pos ha]
      by_cases hh : (collapseWs l).head? = some ' '
      · rw [if_pos hh]; exact ih
      · rw [if_neg hh]
        rw [List.chain'_cons']
        refine ⟨?_, ih⟩
        intro b hb
        intro ⟨_, hsb⟩
        exact hh (by
          have := collapseWs_space_eq (List.mem_of_mem_head? hb) hsb
          rw [← this]; exact hb)
    · rw [if_neg ha]
      rw [List.chain'_cons']
      refine ⟨?_, ih⟩
      intro b _
      intro ⟨hsa, _⟩
      rw [hsa] at ha; exact ha rfl

theorem collapseWs_noop {l : List Char}
    (h1 : ∀ c ∈ l, isSpaceChar c = true → c = ' ')
    (h2 : List.Chain' NoAdjSpace l) : collapseWs l = l := by
  induction l with
  | nil => rfl
  | cons a l ih =>
    have ihl : collapseWs l = l :=
      ih (fun c hc => h1 c (List.mem_cons_of_mem _ hc)) h2.tail
    rw [collapseWs_cons, ihl]
    by_cases ha : isSpaceChar a = true
    · rw [if_pos ha]
      have ha' : a = ' ' := h1 a (List.mem_cons_self _ _) ha
      cases l with
      | nil => simp [ha']
      | cons b l' =>
        have hr : NoAdjSpace a b := (List.chain'_cons.mp h2).1
        have hb : isSpaceChar b = false := by
          rcases Bool.eq_false_or_eq_true (isSpaceChar b) with h | h
          · exact absurd ⟨ha, h⟩ hr
          · exact h
        rw [if_neg, ha']
        simp only [List.head?_cons, Option.some.injEq]
        intro hb'
        rw [hb'] at hb
        simp [isSpaceChar] at hb
    · rw [if_neg ha]

theorem mem_charFilter {l : List Char} {c : Char} (h : c ∈ charFilter l) :
    (isLowerChar c || isDigitChar c || isSpaceChar c) = true := by
  unfold charFilter at h
  rw [List.mem_map] at h
  obtain ⟨a, _, ha⟩ := h
  by_cases hk : (isLowerChar a || isDigitChar a || isSpaceChar a) = true
  · rw [if_pos hk] at ha; rw [ha] at hk; exact hk
  · rw [if_neg hk] at ha; rw [← ha]; decide

theorem charFilter_noop {l : List Char}
    (h : ∀ c ∈ l, (isLowerChar c || isDigitChar c || isSpaceChar c) = true) :
    charFilter l = l := by
  induction l with
  | nil => rfl
  | cons a l ih =>
    unfold charFilter
    simp only [List.map_cons]
    rw [if_pos (h a (List.mem_cons_self _ _))]
    have := ih (fun c hc => h c (List.mem_cons_of_mem _ hc))
    unfold charFilter at this
    rw [this]

theorem lowerL_noop {l : List Char} (h : ∀ c ∈ l, normChar c = true) :
    lowerL l = l := by
  induction l with
  | nil => rfl
  | cons a l ih =>
    unfold lowerL
    simp only [List.map_cons]
    rw [normChar_toLower (h a (List.mem_cons_self _ _))]
    have := ih (fun c hc => h c (List.mem_cons_of_mem _ hc))
    unfold lowerL at this
    rw [this]

/-! ### Facts about finalize -/

theorem finalize_mem_norm {t : List Char} : ∀ c ∈ finalize t, normChar c = true := by
  intro c hc
  unfold finalize at hc
  have hc1 : c ∈ collapseWs (charFilter t) := mem_pyStrip hc
  rcases mem_collapseWs hc1 with h | h
  · have hk := mem_charFilter h
    rcases Bool.or_eq_true _ _ |>.mp hk with hk' | hs
    · unfold normChar
      rw [hk']
      simp
    · have : c = ' ' := collapseWs_space_eq hc1 hs
      subst this; decide
  · subst h; decide

theorem finalize_idem (t : List Char) : finalize (finalize t) = finalize t := by
  have hnorm := finalize_mem_norm (t := t)
  have hchar : charFilter (finalize t) = finalize t :=
    charFilter_noop (fun c hc => normChar_keep (hnorm c hc))
  have hchain : List.Chain' NoAdjSpace (finalize t) := by
    unfold finalize
    exact List.Chain'.infix (collapseWs_chain (charFilter t)) (pyStrip_isInfixOf _)
  have hcoll : collapseWs (finalize t) = finalize t :=
    collapseWs_noop (fun c hc hs => normChar_space_eq (hnorm c hc) hs) hchain
  show pyStrip (collapseWs (charFilter (finalize t))) = finalize t
  rw [hchar, hcoll]
  exact pyStrip_idem _

theorem preClean_finalize (t : List Char) : preClean (finalize t) = finalize t := by
  unfold preClean
  rw [lowerL_noop (finalize_mem_norm (t := t))]
  exact pyStrip_idem _

/-! ### Claim C4: idempotence of the normalizer -/

/-- C4 (counterexample): the normalizer is not idempotent for every input
string and knowledge base.  With the empty knowledge base, the input
`"_oral_"` normalizes to `"oral"` (the character filter turns the
underscores into spaces, exposing `oral` as a whole word), and normalizing
`"oral"` again lets the stop-phrase pass delete it, giving `""`. -/
theorem normalize_idem_counterexample :
    clean_and_standardize [] [] (Cell.str (clean_and_standardize [] [] (Cell.str "_oral_")))
      ≠ clean_and_standardize [] [] (Cell.str "_oral_") := by decide

/-- C4 (amended): the normalizer is not idempotent in general, but it is
idempotent on every input whose normalized form is left unchanged by the
noise-removal passes (steps 2-7: instruction/dose stripping, stop phrases,
corrections, keywords): the final character-filter/whitespace passes are
always idempotent, so under that fixed-point condition the whole pipeline
is.  The condition is sufficient, not necessary — a later cleanup pass can
undo a noise-pass rewrite (see `noiseStage_fixed_point_not_necessary`). -/
theorem normalize_idem_amended (cm : List (List Char × List Char))
    (rk : List (List Char)) (l : List Char)
    (h : noiseStage cm rk (cleanL cm rk l) = cleanL cm rk l) :
    cleanL cm rk (cleanL cm rk l) = cleanL cm rk l := by
  have hp : preClean (cleanL cm rk l) = cleanL cm rk l :=
    preClean_finalize (noiseStage cm rk (preClean l))
  have hfin : finalize (cleanL cm rk l) = cleanL cm rk l :=
    finalize_idem (noiseStage cm rk (preClean l))
  show finalize (noiseStage cm rk (preClean (cleanL cm rk l))) = cleanL cm rk l
  rw [hp, h, hfin]

/-- C4 (witness): the hypothesis of the amended theorem is satisfiable, for
instance by `"metformin"` under the empty knowledge base. -/
theorem normalize_idem_amended_witness :
    noiseStage [] [] (cleanL [] [] "metformin".data) = cleanL [] [] "metformin".data
    ∧ cleanL [] [] (cleanL [] [] "metformin".data) = cleanL [] [] "metformin".data :=
  ⟨by decide, normalize_idem_amended [] [] "metformin".data (by decide)⟩

/-- The fixed-point condition of `normalize_idem_amended` is sufficient but
not necessary: with the correction rule `"a" → "a."` the input `"a"`
normalizes to `"a"` and is idempotent — the final character filter undoes
the appended dot — even though the correction pass rewrites the normalized
output. -/
theorem noiseStage_fixed_point_not_necessary :
    cleanL [("a".data, "a.".data)] [] (cleanL [("a".data, "a.".data)] [] "a".data)
        = cleanL [("a".data, "a.".data)] [] "a".data
    ∧ noiseStage [("a".data, "a.".data)] [] (cleanL [("a".data, "a.".data)] [] "a".data)
        ≠ cleanL [("a".data, "a.".data)] [] "a".data := by decide

/-! ### The scanner changes nothing when its matcher never fires -/

theorem scanSub_noop (m : Option Char → List Char → Option (Nat × List Char)) :
    ∀ (cs : List Char) (f : Nat) (a : List Char), cs.length ≤ f →
      (∀ a2 t, a ++ cs = a2 ++ t → t ≠ [] → m a2.getLast? t = none) →
      scanSub m f a.getLast? cs = cs := by
  intro cs
  induction cs with
  | nil => intro f a _ _; cases f <;> rfl
  | cons c cs ih =>
    intro f a hf H
    cases f with
    | zero => simp at hf
    | succ f =>
      have hm : m a.getLast? (c :: cs) = none := H a (c :: cs) rfl (by simp)
      show scanSub m (f + 1) a.getLast? (c :: cs) = c :: cs
      rw [scanSub, hm]
      have hrec := ih f (a ++ [c]) (by simpa using hf)
        (fun a2 t heq hne => H a2 t (by rw [show a ++ (c :: cs) = (a ++ [c]) ++ cs by simp]; exact heq) hne)
      rw [List.getLast?_concat] at hrec
      rw [hrec]

theorem subB_eq_of_no_occ (pat repl l : List Char) (_hp : pat ≠ [])
    (h : ¬ WholeWordOcc pat l) : subB pat repl l = l := by
  unfold subB
  have hnil : (([] : List Char)).getLast? = none := rfl
  rw [← hnil]
  refine scanSub_noop (mWord pat repl) l l.length [] (le_refl _) ?_
  intro a2 t heq hne
  unfold mWord
  rw [if_neg]
  intro hc
  simp only [Bool.and_eq_true] at hc
  obtain ⟨⟨⟨h1, h2⟩, h3⟩, h4⟩ := hc
  obtain ⟨b, hb⟩ := List.isPrefixOf_iff_prefix.mp h2
  refine h ⟨a2, b, ?_, h3, ?_⟩
  · rw [show l = a2 ++ t by simpa using heq, ← hb, List.append_assoc]
  · rw [← hb, List.drop_left] at h4
    exact h4

theorem ww_sound (pat : List Char) (hp : pat ≠ []) :
    ∀ (x cs a b : List Char), cs = x ++ pat ++ b →
      (optWord (a ++ x).getLast? != optWord pat.head?) = true →
      (optWord pat.getLast? != optWord b.head?) = true →
      wwScan pat a.getLast? cs = true := by
  intro x
  induction x with
  | nil =>
    intro cs a b hcs hL hR
    subst hcs
    cases hpat : pat with
    | nil => exact absurd hpat hp
    | cons p ps =>
      rw [← hpat]
      have hshape : pat ++ b = p :: (ps ++ b) := by rw [hpat]; rfl
      rw [show ([] : List Char) ++ pat ++ b = pat ++ b by simp, hshape, wwScan, ← hshape]
      have hfire : mWord pat [] a.getLast? (pat ++ b) = some (pat.length, []) := by
        unfold mWord
        rw [if_pos]
        simp only [Bool.and_eq_true]
        refine ⟨⟨⟨?_, ?_⟩, ?_⟩, ?_⟩
        · simp [hpat]
        · exact List.isPrefixOf_iff_prefix.mpr (List.prefix_append _ _)
        · simpa using hL
        · rw [List.drop_left]; exact hR
      rw [hfire]
      simp
  | cons d x' ih =>
    intro cs a b hcs hL hR
    subst hcs
    have hshape : (d :: x') ++ pat ++ b = d :: (x' ++ pat ++ b) := rfl
    rw [hshape, wwScan]
    have htail : wwScan pat (some d) (x' ++ pat ++ b) = true := by
      have hL' : (optWord ((a ++ [d]) ++ x').getLast? != optWord pat.head?) = true := by
        rw [show (a ++ [d]) ++ x' = a ++ (d :: x') by simp]
        exact hL
      have := ih (x' ++ pat ++ b) (a ++ [d]) b rfl hL' hR
      rwa [List.getLast?_concat] at this
    rw [htail]
    simp

/-! ### Facts about the stable longest-key-first sort of the correction map -/

theorem mem_insCorr (p : List Char × List Char) :
    ∀ (l : List (List Char × List Char)) (q : List Char × List Char),
      q ∈ insCorr p l ↔ q = p ∨ q ∈ l := by
  intro l
  induction l with
  | nil => intro q; simp [insCorr]
  | cons r rs ih =>
    intro q
    unfold insCorr
    by_cases hlt : p.1.length < r.1.length
    · rw [if_pos hlt]
      simp only [List.mem_cons, ih]
      tauto
    · rw [if_neg hlt]
      simp only [List.mem_cons]

theorem insCorr_pairwise (p : List Char × List Char) :
    ∀ (l : List (List Char × List Char)),
      l.Pairwise (fun a b => b.1.length ≤ a.1.length) →
      (insCorr p l).Pairwise (fun a b => b.1.length ≤ a.1.length) := by
  intro l
  induction l with
  | nil => intro _; simp [insCorr]
  | cons q qs ih =>
    intro h
    obtain ⟨hq, hqs⟩ := List.pairwise_cons.mp h
    unfold insCorr
    by_cases hlt : p.1.length < q.1.length
    · rw [if_pos hlt]
      rw [List.pairwise_cons]
      refine ⟨?_, ih hqs⟩
      intro m hm
      rcases (mem_insCorr p qs m).mp hm with hm' | hm'
      · subst hm'; omega
      · exact hq m hm'
    · rw [if_neg hlt]
      rw [List.pairwise_cons]
      refine ⟨?_, h⟩
      intro m hm
      rcases List.mem_cons.mp hm with hm' | hm'
      · subst hm'; omega
      · have := hq m hm'; omega

theorem sortCorr_pairwise (cm : List (List Char × List Char)) :
    (sortCorr cm).Pairwise (fun a b => b.1.length ≤ a.1.length) := by
  induction cm with
  | nil => simp [sortCorr]
  | cons x xs ih => exact insCorr_pairwise x _ ih

theorem insCorr_perm (p : List Char × List Char) :
    ∀ (l : List (List Char × List Char)), List.Perm (insCorr p l) (p :: l) := by
  intro l
  induction l with
  | nil => simp [insCorr]
  | cons q qs ih =>
    unfold insCorr
    by_cases hlt : p.1.length < q.1.length
    · rw [if_pos hlt]
      exact (ih.cons q).trans (List.Perm.swap p q qs)
    · rw [if_neg hlt]

theorem sortCorr_perm (cm : List (List Char × List Char)) :
    List.Perm (sortCorr cm) cm := by
  induction cm with
  | nil => simp [sortCorr]
  | cons x xs ih => exact (insCorr_perm x (sortCorr xs)).trans (ih.cons x)

/-! ### Claim C6: longest-key-first corrections, whole-word substitutions -/

/-- C6: the normalizer applies the correction rules as a permutation of the
loaded map sorted by weakly decreasing key length (so a rule whose key is a
proper substring of another key — hence strictly shorter — runs strictly
after it), and every substitution pass (corrections and redundant-keyword
removal alike, both implemented by `subB`) rewrites nothing at all in a
text with no whole-word occurrence of its pattern: a key or keyword inside
a longer token is never touched. -/
theorem corrections_longest_first_whole_word :
    (∀ cm : List (List Char × List Char), List.Perm (sortCorr cm) cm ∧
       (sortCorr cm).Pairwise (fun a b => b.1.length ≤ a.1.length))
    ∧ (∀ pat repl l, pat ≠ [] → ¬ WholeWordOcc pat l → subB pat repl l = l) :=
  ⟨fun cm => ⟨sortCorr_perm cm, sortCorr_pairwise cm⟩, subB_eq_of_no_occ⟩

/-- C6 (witness): the keyword `"oral"` does not touch the longer token
`"orally"` (no whole-word occurrence: checked by the executable scan). -/
theorem corrections_longest_first_whole_word_witness :
    subB "oral".data [] "orally".data = "orally".data :=
  corrections_longest_first_whole_word.2 "oral".data [] "orally".data (by decide)
    (fun hocc => by
      obtain ⟨a, b, h1, h2, h3⟩ := hocc
      have hs := ww_sound "oral".data (by decide) a "orally".data [] b
        (by simpa using h1) (by simpa using h2) h3
      exact absurd hs (by decide))

/-! ### Facts about the stable argsort model and the top-20 slice -/

theorem insIdx_mem (v : List ℚ) (i : Nat) :
    ∀ (l : List Nat) (x : Nat), x ∈ insIdx v i l ↔ x = i ∨ x ∈ l := by
  intro l
  induction l with
  | nil => intro x; simp [insIdx]
  | cons j js ih =>
    intro x
    unfold insIdx
    by_cases hc : v.getD j 0 < v.getD i 0
    · rw [if_pos hc]
      simp only [List.mem_cons, ih]
      tauto
    · rw [if_neg hc]
      simp only [List.mem_cons]

theorem insIdx_length (v : List ℚ) (i : Nat) :
    ∀ (l : List Nat), (insIdx v i l).length = l.length + 1 := by
  intro l
  induction l with
  | nil => rfl
  | cons j js ih =>
    unfold insIdx
    by_cases hc : v.getD j 0 < v.getD i 0
    · rw [if_pos hc]; simp [ih]
    · rw [if_neg hc]; rfl

theorem insIdx_pairwise (v : List ℚ) (i : Nat) :
    ∀ (l : List Nat), (∀ j ∈ l, i < j) → l.Pairwise (lexLt v) →
      (insIdx v i l).Pairwise (lexLt v) := by
  intro l
  induction l with
  | nil => intro _ _; simp [insIdx, List.pairwise_singleton]
  | cons j js ih =>
    intro hidx h
    obtain ⟨hj, hjs⟩ := List.pairwise_cons.mp h
    unfold insIdx
    by_cases hc : v.getD j 0 < v.getD i 0
    · rw [if_pos hc]
      rw [List.pairwise_cons]
      refine ⟨?_, ih (fun m hm => hidx m (List.mem_cons_of_mem _ hm)) hjs⟩
      intro m hm
      rcases (insIdx_mem v i js m).mp hm with hm' | hm'
      · subst hm'; exact Or.inl hc
      · exact hj m hm'
    · rw [if_neg hc]
      rw [List.pairwise_cons]
      refine ⟨?_, h⟩
      intro m hm
      have hle : v.getD i 0 ≤ v.getD j 0 := le_of_not_lt hc
      rcases List.mem_cons.mp hm with hm' | hm'
      · rw [hm']
        rcases lt_or_eq_of_le hle with h' | h'
        · exact Or.inl h'
        · exact Or.inr ⟨h', hidx j (List.mem_cons_self _ _)⟩
      · rcases hj m hm' with h' | ⟨h'e, _⟩
        · rcases lt_or_eq_of_le (le_of_lt (lt_of_le_of_lt hle h')) with h'' | h''
          · exact Or.inl h''
          · exact Or.inr ⟨h'', hidx m (List.mem_cons_of_mem _ hm')⟩
        · rcases lt_or_eq_of_le (h'e ▸ hle) with h'' | h''
          · exact Or.inl h''
          · exact Or.inr ⟨h'', hidx m (List.mem_cons_of_mem _ hm')⟩

theorem argsort_fold_spec (v : List ℚ) :
    ∀ (l : List Nat), l.Pairwise (· < ·) →
      (l.foldr (insIdx v) []).Pairwise (lexLt v)
      ∧ (∀ x, x ∈ l.foldr (insIdx v) [] ↔ x ∈ l)
      ∧ (l.foldr (insIdx v) []).length = l.length := by
  intro l
  induction l with
  | nil => exact fun _ => ⟨List.Pairwise.nil, fun x => Iff.rfl, rfl⟩
  | cons x xs ih =>
    intro h
    obtain ⟨hx, hxs⟩ := List.pairwise_cons.mp h
    obtain ⟨ihp, ihm, ihl⟩ := ih hxs
    refine ⟨?_, ?_, ?_⟩
    · exact insIdx_pairwise v x _ (fun m hm => hx m ((ihm m).mp hm)) ihp
    · intro y
      simp only [List.foldr_cons, insIdx_mem, ihm, List.mem_cons]
    · simp only [List.foldr_cons, insIdx_length, ihl, List.length_cons]

theorem argsortAsc_pairwise (v : List ℚ) : (argsortAsc v).Pairwise (lexLt v) :=
  (argsort_fold_spec v _ (List.pairwise_lt_range _)).1

theorem argsortAsc_mem (v : List ℚ) (x : Nat) : x ∈ argsortAsc v ↔ x < v.length := by
  unfold argsortAsc
  rw [(argsort_fold_spec v _ (List.pairwise_lt_range _)).2.1 x, List.mem_range]

theorem argsortAsc_length (v : List ℚ) : (argsortAsc v).length = v.length := by
  unfold argsortAsc
  rw [(argsort_fold_spec v _ (List.pairwise_lt_range _)).2.2, List.length_range]

theorem argTop20_length (v : List ℚ) : (argTop20 v).length = min 20 v.length := by
  unfold argTop20
  rw [List.length_reverse, List.length_drop, argsortAsc_length]
  omega

theorem argTop20_pairwise (v : List ℚ) :
    (argTop20 v).Pairwise (fun i j => lexLt v j i) := by
  unfold argTop20
  rw [List.pairwise_reverse]
  exact (argsortAsc_pairwise v).drop

theorem argTop20_mem_lt (v : List ℚ) {i : Nat} (h : i ∈ argTop20 v) : i < v.length := by
  unfold argTop20 at h
  rw [List.mem_reverse] at h
  exact (argsortAsc_mem v i).mp ((List.drop_sublist _ _).mem h)

theorem argTop20_sel (v : List ℚ) {i j : Nat} (hi : i ∈ argTop20 v)
    (hj : j < v.length) (hnj : j ∉ argTop20 v) : lexLt v j i := by
  unfold argTop20 at hi hnj
  rw [List.mem_reverse] at hi hnj
  have hjS : j ∈ argsortAsc v := (argsortAsc_mem v j).mpr hj
  have hsplit := (List.take_append_drop ((argsortAsc v).length - 20) (argsortAsc v)).symm
  have hjtake : j ∈ (argsortAsc v).take ((argsortAsc v).length - 20) := by
    rw [hsplit] at hjS
    rcases List.mem_append.mp hjS with h | h
    · exact h
    · exact absurd h hnj
  have hpw := argsortAsc_pairwise v
  rw [hsplit] at hpw
  exact (List.pairwise_append.mp hpw).2.2 j hjtake i hi

theorem argTop20_head_max (v : List ℚ) {c0 : Nat} {rest : List Nat}
    (hc : argTop20 v = c0 :: rest) :
    c0 < v.length ∧ v.getD c0 0 ∈ v ∧ (∀ s ∈ v, s ≤ v.getD c0 0) := by
  have hc0mem : c0 ∈ argTop20 v := by rw [hc]; exact List.mem_cons_self _ _
  have hc0lt : c0 < v.length := argTop20_mem_lt v hc0mem
  refine ⟨hc0lt, ?_, ?_⟩
  · rw [List.getD_eq_getElem v 0 hc0lt]
    exact List.getElem_mem hc0lt
  · intro s hs
    obtain ⟨j, hj, hjs⟩ := List.mem_iff_getElem.mp hs
    have hkey : v.getD j 0 ≤ v.getD c0 0 := by
      by_cases hje : j = c0
      · subst hje; exact le_refl _
      · have hlex : lexLt v j c0 := by
          by_cases hjin : j ∈ argTop20 v
          · rw [hc] at hjin
            rcases List.mem_cons.mp hjin with h' | h'
            · exact absurd h' hje
            · have hpw := argTop20_pairwise v
              rw [hc] at hpw
              exact (List.pairwise_cons.mp hpw).1 j h'
          · exact argTop20_sel v hc0mem hj hjin
        rcases hlex with h' | ⟨h', _⟩
        · exact le_of_lt h'
        · exact le_of_eq h'
    rw [List.getD_eq_getElem v 0 hj, hjs] at hkey
    exact hkey

/-! ### The rerank loop selects the first strict maximum -/

theorem rerankFold_spec (fs : Nat → ℚ) :
    ∀ (l : List Nat) (b : ℚ) (bi : Int),
      ((∀ i ∈ l, fs i ≤ b) ∧ rerankFold fs l (b, bi) = (b, bi))
      ∨ (∃ i l1 l2, l = l1 ++ i :: l2 ∧ b < fs i
          ∧ (∀ j ∈ l, fs j ≤ fs i) ∧ (∀ j ∈ l1, fs j < fs i)
          ∧ rerankFold fs l (b, bi) = (fs i, (i : Int))) := by
  intro l
  induction l with
  | nil => intro b bi; exact Or.inl ⟨by simp, rfl⟩
  | cons i0 l' ih =>
    intro b bi
    have hstep : rerankFold fs (i0 :: l') (b, bi)
        = rerankFold fs l' (if b < fs i0 then (fs i0, (i0 : Int)) else (b, bi)) := rfl
    by_cases hb : b < fs i0
    · rw [if_pos hb] at hstep
      rcases ih (fs i0) (i0 : Int) with ⟨hall, heq⟩ | ⟨i, l1, l2, hsp, hlt, hmax, hfirst, heq⟩
      · refine Or.inr ⟨i0, [], l', rfl, hb, ?_, by simp, by rw [hstep, heq]⟩
        intro j hj
        rcases List.mem_cons.mp hj with h' | h'
        · rw [h']
        · exact hall j h'
      · refine Or.inr ⟨i, i0 :: l1, l2, by simp [hsp], lt_trans hb hlt, ?_, ?_, by rw [hstep, heq]⟩
        · intro j hj
          rcases List.mem_cons.mp hj with h' | h'
          · rw [h']; exact le_of_lt hlt
          · exact hmax j h'
        · intro j hj
          rcases List.mem_cons.mp hj with h' | h'
          · rw [h']; exact hlt
          · exact hfirst j h'
    · rw [if_neg hb] at hstep
      have hle : fs i0 ≤ b := le_of_not_lt hb
      rcases ih b bi with ⟨hall, heq⟩ | ⟨i, l1, l2, hsp, hlt, hmax, hfirst, heq⟩
      · refine Or.inl ⟨?_, by rw [hstep, heq]⟩
        intro j hj
        rcases List.mem_cons.mp hj with h' | h'
        · rw [h']; exact hle
        · exact hall j h'
      · refine Or.inr ⟨i, i0 :: l1, l2, by simp [hsp], hlt, ?_, ?_, by rw [hstep, heq]⟩
        · intro j hj
          rcases List.mem_cons.mp hj with h' | h'
          · rw [h']; exact le_of_lt (lt_of_le_of_lt hle hlt)
          · exact hmax j h'
        · intro j hj
          rcases List.mem_cons.mp hj with h' | h'
          · rw [h']; exact lt_of_le_of_lt hle hlt
          · exact hfirst j h'

theorem overlapScoreAt_nonneg (desc cstr : String) : 0 ≤ overlapScoreAt desc cstr := by
  simp only [overlapScoreAt]
  split
  · exact le_refl 0
  · rw [Rat.mkRat_eq_div]
    positivity

theorem finalScoreAt_nonneg (desc : String) (data : List TermEntry)
    (w : String → String → ℚ) (idx : Nat)
    (hw : 0 ≤ w desc (data.getD idx dfltEntry).CleanedSTR) :
    0 ≤ finalScoreAt desc data w idx := by
  simp only [finalScoreAt]
  have h2 := overlapScoreAt_nonneg desc (data.getD idx dfltEntry).CleanedSTR
  have h4 : (0 : ℚ) ≤ mkRat 4 10 := by rw [Rat.mkRat_eq_div]; norm_num
  have h6 : (0 : ℚ) ≤ mkRat 6 10 := by rw [Rat.mkRat_eq_div]; norm_num
  have := mul_nonneg hw h4
  have := mul_nonneg h2 h6
  linarith

theorem ilocE_natCast (data : List TermEntry) (i : Nat) :
    ilocE data (i : Int) = data.getD i dfltEntry := by
  unfold ilocE
  rw [if_pos (Int.natCast_nonneg i)]
  simp

/-! ### Unfolding equations for findCore -/

theorem findCore_system (desc system : String) (data : List TermEntry)
    (sims : List ℚ) (w : String → String → ℚ) :
    (findCore desc system data sims w).System = system := by
  unfold findCore
  split
  · rfl
  · split
    · rfl
    · split
      · rfl
      · rfl

theorem findCore_no_input (desc system : String) (data : List TermEntry)
    (sims : List ℚ) (w : String → String → ℚ)
    (h : (pyStrip desc.data).isEmpty = true) :
    findCore desc system data sims w
      = ⟨system, "NO_INPUT", "Original text was empty after cleaning"⟩ := by
  unfold findCore
  rw [if_pos h]

theorem findCore_eq (desc system : String) (data : List TermEntry)
    (sims : List ℚ) (w : String → String → ℚ)
    (hne : (pyStrip desc.data).isEmpty = false)
    (c0 : Nat) (rest : List Nat) (hc : argTop20 sims = c0 :: rest) :
    findCore desc system data sims w =
      (if sims.getD c0 0 < mkRat 1 10 then ⟨system, "NOT_FOUND", "No suitable match found"⟩
       else
        let best := rerankFold (finalScoreAt desc data w) (c0 :: rest) (-1, -1)
        ⟨system, (ilocE data best.2).CODE, (ilocE data best.2).STR⟩ : MatchResult) := by
  unfold findCore
  rw [if_neg (by simp [hne]), hc]

/-! ### Claim C3: stage-1 selection and tie order -/

/-- C3 (counterexample): with every similarity equal, the stage-1 slice
`argsort()[-20:][::-1]` keeps the **later** positions and lists them first:
among 21 equal-similarity entries position 0 is not selected at all, and
with two equal-similarity entries the candidate list is `[1, 0]`, not
`[0, 1]` — the opposite of the claimed earlier-position preference. -/
theorem stage1_tie_counterexample :
    ((0 : Nat) ∉ argTop20 (List.replicate 21 (1 : ℚ)))
    ∧ argTop20 [(1 : ℚ), 1] = [1, 0] := by decide

/-- C3 (amended): stage-1 retrieval selects the `min 20 n` positions of
highest similarity and orders them by strictly decreasing similarity, but
with ties — both at the inclusion cutoff and inside the candidate list —
resolved in favor of the **later** index position (under the stable
ascending model of `argsort`; the `[-20:]` slice keeps the tail of the
ascending order, and the final reversal puts larger indices first among
equal similarities). -/
theorem stage1_top20_amended (v : List ℚ) :
    (argTop20 v).length = min 20 v.length
    ∧ (argTop20 v).Pairwise (fun i j => lexLt v j i)
    ∧ (∀ i ∈ argTop20 v, i < v.length)
    ∧ (∀ i ∈ argTop20 v, ∀ j, j < v.length → j ∉ argTop20 v → lexLt v j i) :=
  ⟨argTop20_length v, argTop20_pairwise v, fun _ h => argTop20_mem_lt v h,
   fun _ hi j hj hnj => argTop20_sel v hi hj hnj⟩

/-- C3 (witness): among 21 equal similarities, the excluded position 0 is
lexicographically below the selected position 20. -/
theorem stage1_top20_amended_witness :
    lexLt (List.replicate 21 (1 : ℚ)) 0 20 :=
  (stage1_top20_amended (List.replicate 21 (1 : ℚ))).2.2.2 20 (by decide) 0
    (by decide) (by decide)

theorem simThreshold_eq : (mkRat 1 10 : ℚ) = 1/10 := by
  rw [Rat.mkRat_eq_div]
  norm_num

/-! ### The rerank outcome, packaged -/

theorem findCore_rerank (desc system : String) (data : List TermEntry)
    (sims : List ℚ) (w : String → String → ℚ)
    (hne : (pyStrip desc.data).isEmpty = false)
    (c0 : Nat) (rest : List Nat) (hc : argTop20 sims = c0 :: rest)
    (hth : ¬ sims.getD c0 0 < 1/10)
    (hw : ∀ c, 0 ≤ w desc c) :
    ∃ i l1 l2, argTop20 sims = l1 ++ i :: l2
      ∧ findCore desc system data sims w
          = ⟨system, (data.getD i dfltEntry).CODE, (data.getD i dfltEntry).STR⟩
      ∧ (∀ j ∈ argTop20 sims, finalScoreAt desc data w j ≤ finalScoreAt desc data w i)
      ∧ (∀ j ∈ l1, finalScoreAt desc data w j < finalScoreAt desc data w i) := by
  rcases rerankFold_spec (finalScoreAt desc data w) (c0 :: rest) (-1) (-1) with
    ⟨hall, _⟩ | ⟨i, l1, l2, hsp, _, hmax, hfirst, heq⟩
  · exfalso
    have h0 := finalScoreAt_nonneg desc data w c0 (hw _)
    have h1 := hall c0 (List.mem_cons_self _ _)
    linarith
  · refine ⟨i, l1, l2, hc.trans hsp, ?_, ?_, hfirst⟩
    · rw [findCore_eq desc system data sims w hne c0 rest hc,
        if_neg (show ¬ sims.getD c0 0 < mkRat 1 10 by rw [simThreshold_eq]; exact hth)]
      simp only [heq, ilocE_natCast]
    · intro j hj
      rw [hc] at hj
      exact hmax j hj

/-- Against a one-entry index whose similarity is not below the threshold,
the matcher returns that entry (the single candidate wins the rerank
regardless of the fuzzy score, which only needs to be nonnegative). -/
theorem findCore_single (desc system : String) (e : TermEntry) (s0 : ℚ)
    (w : String → String → ℚ)
    (hne : (pyStrip desc.data).isEmpty = false)
    (hth : ¬ s0 < 1/10)
    (hw : ∀ c, 0 ≤ w desc c) :
    findCore desc system [e] [s0] w = ⟨system, e.CODE, e.STR⟩ := by
  have hc : argTop20 [s0] = [0] := rfl
  obtain ⟨i, l1, l2, hsplit, heq, _, _⟩ :=
    findCore_rerank desc system [e] [s0] w hne 0 [] hc (by exact hth) hw
  rw [hc] at hsplit
  cases l1 with
  | nil =>
    simp only [List.nil_append, List.cons.injEq] at hsplit
    rw [heq, ← hsplit.1]
    rfl
  | cons a t =>
    simp only [List.cons_append, List.cons.injEq] at hsplit
    exact absurd hsplit.2.symm (List.append_ne_nil_of_right_ne_nil t (List.cons_ne_nil i l2))

/-! ### Claim C1: the retrieval threshold -/

/-- C1 (counterexample): a best cosine similarity of exactly 0.1 is **not**
rejected — the guard is the strict `similarities[...] < 0.1` — so the
matcher proceeds to rerank and returns the real entry, where the claim
demands the `NOT_FOUND` sentinel at exactly 0.1. -/
theorem threshold_counterexample :
    find_best_match "x" "Medication" [] [⟨"111", "Xdrug", "x"⟩]
        (fun _ => []) (fun _ => [mkRat 1 10]) (fun _ _ => 50)
      = ⟨"RXNORM", "111", "Xdrug"⟩ := by
  have h := findCore_single "x" "RXNORM" ⟨"111", "Xdrug", "x"⟩ (mkRat 1 10)
    (fun _ _ => 50) (by decide)
    (by rw [simThreshold_eq]; exact lt_irrefl _) (fun c => by norm_num)
  exact h

/-- C1 (amended): for a non-empty normalized query against a non-empty
index, if every similarity is strictly below 0.1 the matcher returns the
`NOT_FOUND` sentinel, and if some similarity is at least 0.1 (boundary
included) it proceeds to rerank and returns a real entry of the index. -/
theorem threshold_amended (desc system : String) (data : List TermEntry)
    (sims : List ℚ) (w : String → String → ℚ)
    (hne : (pyStrip desc.data).isEmpty = false)
    (hlen : sims.length = data.length) (hs : sims ≠ []) :
    ((∀ s ∈ sims, s < 1/10) →
       findCore desc system data sims w = ⟨system, "NOT_FOUND", "No suitable match found"⟩)
    ∧ ((∃ s ∈ sims, 1/10 ≤ s) → (∀ c, 0 ≤ w desc c) →
       ∃ i, i < data.length ∧ findCore desc system data sims w
          = ⟨system, (data.getD i dfltEntry).CODE, (data.getD i dfltEntry).STR⟩) := by
  obtain ⟨c0, rest, hc⟩ : ∃ c0 rest, argTop20 sims = c0 :: rest := by
    have hl : (argTop20 sims).length = min 20 sims.length := argTop20_length sims
    have h0 : sims.length ≠ 0 := fun h => hs (List.eq_nil_of_length_eq_zero h)
    cases hcand : argTop20 sims with
    | nil => rw [hcand] at hl; simp at hl; omega
    | cons a b => exact ⟨a, b, rfl⟩
  obtain ⟨hc0lt, hc0mem, hc0max⟩ := argTop20_head_max sims hc
  constructor
  · intro hall
    rw [findCore_eq desc system data sims w hne c0 rest hc,
      if_pos (show sims.getD c0 0 < mkRat 1 10 by rw [simThreshold_eq]; exact hall _ hc0mem)]
  · intro hq hw
    obtain ⟨s, hsmem, hsge⟩ := hq
    have hth : ¬ sims.getD c0 0 < 1/10 := not_lt.mpr (le_trans hsge (hc0max s hsmem))
    obtain ⟨i, l1, l2, hsplit, heq, _, _⟩ :=
      findCore_rerank desc system data sims w hne c0 rest hc hth hw
    have hi : i ∈ argTop20 sims := by
      rw [hsplit]; exact List.mem_append_right _ (List.mem_cons_self _ _)
    exact ⟨i, hlen ▸ argTop20_mem_lt sims hi, heq⟩

/-- C1 (witness): the amended theorem at concrete inputs — all similarities
0.05 gives `NOT_FOUND`; a similarity of 0.5 returns the index entry. -/
theorem threshold_amended_witness :
    (findCore "x" "RXNORM" [⟨"111", "Xdrug", "x"⟩] [mkRat 1 20] (fun _ _ => 50)
      = ⟨"RXNORM", "NOT_FOUND", "No suitable match found"⟩)
    ∧ ∃ i, i < ([⟨"111", "Xdrug", "x"⟩] : List TermEntry).length
        ∧ findCore "x" "RXNORM" [⟨"111", "Xdrug", "x"⟩] [mkRat 1 2] (fun _ _ => 50)
          = ⟨"RXNORM", (([⟨"111", "Xdrug", "x"⟩] : List TermEntry).getD i dfltEntry).CODE,
              (([⟨"111", "Xdrug", "x"⟩] : List TermEntry).getD i dfltEntry).STR⟩ :=
  ⟨(threshold_amended "x" "RXNORM" [⟨"111", "Xdrug", "x"⟩] [mkRat 1 20] (fun _ _ => 50)
      (by decide) (by decide) (by decide)).1
      (by
        intro s hs
        rw [List.mem_singleton] at hs
        subst hs
        rw [Rat.mkRat_eq_div]
        norm_num),
   (threshold_amended "x" "RXNORM" [⟨"111", "Xdrug", "x"⟩] [mkRat 1 2] (fun _ _ => 50)
      (by decide) (by decide) (by decide)).2
      ⟨mkRat 1 2, List.mem_singleton_self _, by rw [Rat.mkRat_eq_div]; norm_num⟩
      (fun c => by norm_num)⟩

/-! ### Claim C2: the rerank formula and tie-break -/

/-- C2: for a non-empty normalized query that clears the retrieval
threshold, each candidate's score is `finalScore = 0.4·fuzzy + 0.6·overlap`
with `overlap = 100·|query words ∩ candidate words| / |query words|` (0 for
an empty query word set), and the matcher returns the candidate of strictly
highest `finalScore`, exact ties going to the candidate occurring earlier
in the stage-1 candidate order (the accumulator only updates on strict
improvement). -/
theorem rerank_formula_and_tiebreak (desc system : String) (data : List TermEntry)
    (sims : List ℚ) (w : String → String → ℚ)
    (hne : (pyStrip desc.data).isEmpty = false)
    (hs : sims ≠ [])
    (hq : ∃ s ∈ sims, 1/10 ≤ s)
    (hw : ∀ c, 0 ≤ w desc c) :
    (∀ idx, finalScoreAt desc data w idx
        = w desc (data.getD idx dfltEntry).CleanedSTR * (4/10)
          + overlapScoreAt desc (data.getD idx dfltEntry).CleanedSTR * (6/10))
    ∧ (∀ cstr, overlapScoreAt desc cstr
        = if ((pySplitCore desc.data).dedup).isEmpty then 0
          else (((pySplitCore desc.data).dedup.filter
              (fun t => (pySplitCore cstr.data).contains t)).length : ℚ)
            / (((pySplitCore desc.data).dedup).length : ℚ) * 100)
    ∧ ∃ i l1 l2, argTop20 sims = l1 ++ i :: l2
        ∧ findCore desc system data sims w
            = ⟨system, (data.getD i dfltEntry).CODE, (data.getD i dfltEntry).STR⟩
        ∧ (∀ j ∈ argTop20 sims, finalScoreAt desc data w j ≤ finalScoreAt desc data w i)
        ∧ (∀ j ∈ l1, finalScoreAt desc data w j < finalScoreAt desc data w i) := by
  refine ⟨?_, ?_, ?_⟩
  · intro idx
    simp only [finalScoreAt]
    rw [Rat.mkRat_eq_div, Rat.mkRat_eq_div]
    norm_num
  · intro cstr
    simp only [overlapScoreAt]
    split
    · rfl
    · rw [Rat.mkRat_eq_div]
      push_cast
      ring
  · obtain ⟨c0, rest, hc⟩ : ∃ c0 rest, argTop20 sims = c0 :: rest := by
      have hl : (argTop20 sims).length = min 20 sims.length := argTop20_length sims
      have h0 : sims.length ≠ 0 := fun h => hs (List.eq_nil_of_length_eq_zero h)
      cases hcand : argTop20 sims with
      | nil => rw [hcand] at hl; simp at hl; omega
      | cons a b => exact ⟨a, b, rfl⟩
    obtain ⟨_, hc0mem, hc0max⟩ := argTop20_head_max sims hc
    obtain ⟨s, hsmem, hsge⟩ := hq
    have hth : ¬ sims.getD c0 0 < 1/10 := not_lt.mpr (le_trans hsge (hc0max s hsmem))
    exact findCore_rerank desc system data sims w hne c0 rest hc hth hw

/-- C2 (witness): the rerank conclusion at a concrete two-candidate
instance with equal similarities. -/
theorem rerank_formula_and_tiebreak_witness :
    ∃ i l1 l2, argTop20 [mkRat 1 2, mkRat 1 2] = l1 ++ i :: l2
      ∧ findCore "a b" "RXNORM" [⟨"1", "A", "a b"⟩, ⟨"2", "B", "b a"⟩]
            [mkRat 1 2, mkRat 1 2] (fun _ _ => 50)
          = ⟨"RXNORM",
              (([⟨"1", "A", "a b"⟩, ⟨"2", "B", "b a"⟩] : List TermEntry).getD i dfltEntry).CODE,
              (([⟨"1", "A", "a b"⟩, ⟨"2", "B", "b a"⟩] : List TermEntry).getD i dfltEntry).STR⟩
      ∧ (∀ j ∈ argTop20 [mkRat 1 2, mkRat 1 2],
          finalScoreAt "a b" [⟨"1", "A", "a b"⟩, ⟨"2", "B", "b a"⟩] (fun _ _ => 50) j
            ≤ finalScoreAt "a b" [⟨"1", "A", "a b"⟩, ⟨"2", "B", "b a"⟩] (fun _ _ => 50) i)
      ∧ (∀ j ∈ l1,
          finalScoreAt "a b" [⟨"1", "A", "a b"⟩, ⟨"2", "B", "b a"⟩] (fun _ _ => 50) j
            < finalScoreAt "a b" [⟨"1", "A", "a b"⟩, ⟨"2", "B", "b a"⟩] (fun _ _ => 50) i) :=
  (rerank_formula_and_tiebreak "a b" "RXNORM" [⟨"1", "A", "a b"⟩, ⟨"2", "B", "b a"⟩]
    [mkRat 1 2, mkRat 1 2] (fun _ _ => 50) (by decide) (by decide)
    ⟨mkRat 1 2, List.mem_cons_self _ _, by rw [Rat.mkRat_eq_div]; norm_num⟩
    (fun c => by norm_num)).2.2

/-! ### Claim C5: empty and non-string input -/

/-- C5: the cleaner maps every non-string cell to the empty string, and a
query that is empty after trimming makes the matcher return the `NO_INPUT`
sentinel immediately — the result does not depend on the similarity
oracles or the fuzzy scorer, so no vector projection or similarity
computation can influence it. -/
theorem no_input_contract :
    (∀ (cm : List (List Char × List Char)) (rk : List (List Char)) (x : Cell),
       (∀ s, x ≠ Cell.str s) → clean_and_standardize cm rk x = "")
    ∧ (∀ (desc ety : String) (sd rd : List TermEntry)
         (ss rs : String → List ℚ) (w : String → String → ℚ),
       (pyStrip desc.data).isEmpty = true →
       find_best_match desc ety sd rd ss rs w
         = ⟨if (["Procedure", "Lab", "Diagnosis"] : List String).contains ety
              then "SNOMEDCT_US" else "RXNORM",
            "NO_INPUT", "Original text was empty after cleaning"⟩
       ∧ ∀ (ss' rs' : String → List ℚ) (w' : String → String → ℚ),
           find_best_match desc ety sd rd ss rs w
             = find_best_match desc ety sd rd ss' rs' w') := by
  constructor
  · intro cm rk x hx
    cases x with
    | str s => exact absurd rfl (hx s)
    | na => rfl
  · intro desc ety sd rd ss rs w h
    constructor
    · unfold find_best_match
      by_cases hety : (["Procedure", "Lab", "Diagnosis"] : List String).contains ety = true
      · rw [if_pos hety, if_pos hety, findCore_no_input _ _ _ _ _ h]
      · rw [if_neg hety, if_neg hety, findCore_no_input _ _ _ _ _ h]
    · intro ss' rs' w'
      unfold find_best_match
      by_cases hety : (["Procedure", "Lab", "Diagnosis"] : List String).contains ety = true
      · rw [if_pos hety, findCore_no_input _ _ _ _ _ h, if_pos hety,
          findCore_no_input _ _ _ _ _ h]
      · rw [if_neg hety, findCore_no_input _ _ _ _ _ h, if_neg hety,
          findCore_no_input _ _ _ _ _ h]

/-- C5 (witness): a non-string cell cleans to `""`, and an all-whitespace
query returns the `NO_INPUT` sentinel. -/
theorem no_input_contract_witness :
    clean_and_standardize [] [] Cell.na = ""
    ∧ find_best_match "   " "Medication" [] [] (fun _ => []) (fun _ => []) (fun _ _ => 0)
        = ⟨"RXNORM", "NO_INPUT", "Original text was empty after cleaning"⟩ :=
  ⟨no_input_contract.1 [] [] Cell.na (fun s h => Cell.noConfusion h),
   (no_input_contract.2 "   " "Medication" [] [] (fun _ => []) (fun _ => [])
     (fun _ _ => 0) (by decide)).1⟩

/-! ### Claim C7: entity-type routing -/

/-- C7: entity types in `{Procedure, Lab, Diagnosis}` consult the
SNOMED-like index under the label `SNOMEDCT_US`; every other entity type
consults the RxNorm-like index under the label `RXNORM`. -/
theorem entity_routing :
    ∀ (desc ety : String) (sd rd : List TermEntry) (ss rs : String → List ℚ)
      (w : String → String → ℚ),
      (ety ∈ (["Procedure", "Lab", "Diagnosis"] : List String) →
        find_best_match desc ety sd rd ss rs w
          = findCore desc "SNOMEDCT_US" sd (ss desc) w)
      ∧ (ety ∉ (["Procedure", "Lab", "Diagnosis"] : List String) →
        find_best_match desc ety sd rd ss rs w
          = findCore desc "RXNORM" rd (rs desc) w) := by
  intro desc ety sd rd ss rs w
  constructor
  · intro hmem
    unfold find_best_match
    rw [if_pos (List.elem_iff.mpr hmem)]
  · intro hnm
    unfold find_best_match
    rw [if_neg (fun hc => hnm (List.elem_iff.mp hc))]

/-- C7 (witness): `"Diagnosis"` routes to the SNOMED-like index,
`"Medication"` to the RxNorm-like index. -/
theorem entity_routing_witness :
    find_best_match "m" "Diagnosis" [] [] (fun _ => []) (fun _ => []) (fun _ _ => 0)
      = findCore "m" "SNOMEDCT_US" [] ((fun _ => ([] : List ℚ)) "m") (fun _ _ => 0)
    ∧ find_best_match "m" "Medication" [] [] (fun _ => []) (fun _ => []) (fun _ _ => 0)
      = findCore "m" "RXNORM" [] ((fun _ => ([] : List ℚ)) "m") (fun _ _ => 0) :=
  ⟨(entity_routing "m" "Diagnosis" [] [] (fun _ => []) (fun _ => []) (fun _ _ => 0)).1
      (by decide),
   (entity_routing "m" "Medication" [] [] (fun _ => []) (fun _ => []) (fun _ _ => 0)).2
      (by decide)⟩

/-! ### Claim C10: the System field is always a real coding-system label -/

/-- C10: on every call — including the `NO_INPUT` and `NOT_FOUND` sentinel
outcomes — the returned `System` field is determined solely by the entity
type and is always one of the two real labels `SNOMEDCT_US` / `RXNORM`;
no sentinel value ever appears there. -/
theorem system_label_invariant :
    ∀ (desc ety : String) (sd rd : List TermEntry) (ss rs : String → List ℚ)
      (w : String → String → ℚ),
      (find_best_match desc ety sd rd ss rs w).System
        = (if (["Procedure", "Lab", "Diagnosis"] : List String).contains ety
            then "SNOMEDCT_US" else "RXNORM")
      ∧ ((find_best_match desc ety sd rd ss rs w).System = "SNOMEDCT_US"
          ∨ (find_best_match desc ety sd rd ss rs w).System = "RXNORM") := by
  intro desc ety sd rd ss rs w
  have h1 : (find_best_match desc ety sd rd ss rs w).System
      = (if (["Procedure", "Lab", "Diagnosis"] : List String).contains ety
          then "SNOMEDCT_US" else "RXNORM") := by
    unfold find_best_match
    by_cases hety : (["Procedure", "Lab", "Diagnosis"] : List String).contains ety = true
    · rw [if_pos hety, if_pos hety, findCore_system]
    · rw [if_neg hety, if_neg hety, findCore_system]
  refine ⟨h1, ?_⟩
  rw [h1]
  by_cases hety : (["Procedure", "Lab", "Diagnosis"] : List String).contains ety = true
  · rw [if_pos hety]; exact Or.inl rfl
  · rw [if_neg hety]; exact Or.inr rfl

/-! ### Claim C8: the two scripts' core logic -/

/-- C8 (counterexample): the two cleaners are not extensionally equal —
`demo.py`'s cleaner lemmatizes each token (here: a lemmatizer instance
mapping the plural `"cats"` to `"cat"`), a step `harmonize.py`'s cleaner
does not have, so the outputs differ on `"cats"`. -/
theorem scripts_equiv_counterexample :
    clean_and_standardize_demo lemmEx [] [] (Cell.str "cats")
      ≠ clean_and_standardize [] [] (Cell.str "cats") := by decide

/-- C8 (amended): the two scripts' `find_best_match` functions are
extensionally identical, and the two cleaners agree exactly when the
tokenize-lemmatize-rejoin step of `demo.py` leaves the intermediate text
unchanged; lemmatization is the only difference between them. -/
theorem scripts_equiv_amended :
    (∀ (desc ety : String) (sd rd : List TermEntry) (ss rs : String → List ℚ)
        (w : String → String → ℚ),
      find_best_match_demo desc ety sd rd ss rs w = find_best_match desc ety sd rd ss rs w)
    ∧ (∀ (lemm : List Char → List Char) (cm : List (List Char × List Char))
        (rk : List (List Char)) (s : String),
      lemmStep lemm (noiseStage cm rk (preClean s.data))
          = noiseStage cm rk (preClean s.data) →
      clean_and_standardize_demo lemm cm rk (Cell.str s)
        = clean_and_standardize cm rk (Cell.str s)) := by
  constructor
  · intro desc ety sd rd ss rs w
    rfl
  · intro lemm cm rk s h
    show String.mk (finalize (lemmStep lemm (noiseStage cm rk (preClean s.data)))) = _
    rw [h]
    rfl

/-- C8 (witness): the cleaners agree on `"cats"` under the identity
lemmatizer, for which the lemmatize step changes nothing. -/
theorem scripts_equiv_amended_witness :
    clean_and_standardize_demo (fun t => t) [] [] (Cell.str "cats")
      = clean_and_standardize [] [] (Cell.str "cats") :=
  scripts_equiv_amended.2 (fun t => t) [] [] "cats" (by decide)

/-! ### Claim C9: the end-to-end metformin example -/

/-- C9 (counterexample): with the (empty) knowledge base available to the
model, the example input does not normalize to a string containing only
the word `metformin`: the cleaner leaves `"mouth 8 hours metformin"`
(`by mouth every 8 hours` loses only the stop words `by` and `every`). -/
theorem metformin_counterexample :
    pySplitCore (clean_and_standardize [] []
        (Cell.str "Take 2 (chewable) tablet(s) by mouth every 8 hours Metformin 500mg")).data
      ≠ ["metformin".data]
    ∧ clean_and_standardize [] []
        (Cell.str "Take 2 (chewable) tablet(s) by mouth every 8 hours Metformin 500mg")
      = "mouth 8 hours metformin" := by decide

/-- C9 (amended): the example input normalizes (empty knowledge base) to
`"mouth 8 hours metformin"` — a string containing `metformin` among
residual words — and matching that string with a non-SNOMED entity type
against a one-entry RxNorm-like index whose entry is raw `"Metformin"`,
normalized `"metformin"` (one-term vocabulary, similarity 1) returns that
entry's code under the label `RXNORM`, for any nonnegative fuzzy scorer. -/
theorem metformin_amended (w : String → String → ℚ)
    (hw : ∀ c, 0 ≤ w "mouth 8 hours metformin" c) :
    clean_and_standardize [] []
        (Cell.str "Take 2 (chewable) tablet(s) by mouth every 8 hours Metformin 500mg")
      = "mouth 8 hours metformin"
    ∧ "metformin".data ∈ pySplitCore ("mouth 8 hours metformin").data
    ∧ find_best_match "mouth 8 hours metformin" "Medication" []
          [⟨"6809", "Metformin", "metformin"⟩] (fun _ => []) (oneDocSim "metformin") w
        = ⟨"RXNORM", "6809", "Metformin"⟩ := by
  refine ⟨by decide, by decide, ?_⟩
  have hsim : oneDocSim "metformin" "mouth 8 hours metformin" = [1] := by decide
  show findCore "mouth 8 hours metformin" "RXNORM" [⟨"6809", "Metformin", "metformin"⟩]
      (oneDocSim "metformin" "mouth 8 hours metformin") w = _
  rw [hsim]
  exact findCore_single "mouth 8 hours metformin" "RXNORM" ⟨"6809", "Metformin", "metformin"⟩
    1 w (by decide) (by norm_num) hw

/-- C9 (witness): the amended theorem at the constant fuzzy scorer 100. -/
theorem metformin_amended_witness :
    clean_and_standardize [] []
        (Cell.str "Take 2 (chewable) tablet(s) by mouth every 8 hours Metformin 500mg")
      = "mouth 8 hours metformin"
    ∧ "metformin".data ∈ pySplitCore ("mouth 8 hours metformin").data
    ∧ find_best_match "mouth 8 hours metformin" "Medication" []
          [⟨"6809", "Metformin", "metformin"⟩] (fun _ => []) (oneDocSim "metformin")
          (fun _ _ => 100)
        = ⟨"RXNORM", "6809", "Metformin"⟩ :=
  metformin_amended (fun _ _ => 100) (fun c => by norm_num)
